import Mathlib

/-
Verification of the dependency-graph task scheduler in
debug/scripts/pipeline.py (bayes_gain_screens).

The development shallowly embeds, in order:
  * iterative_topological_sort (pipeline.py lines 105-133) and the execution
    order consumed by the engine (line 154),
  * the execution-engine loop of execute_dask (lines 140-185) as an event
    trace, together with buffered-file semantics for the run ledger,
  * update_timing (lines 188-203),
  * the command composition of CMD.__call__ / Env.compose (lines 25-72) with
    a small model of bash pipeline exit-status semantics,
  * make_working_dir (lines 75-102) over a flat directory model.

Lists that Python mutates at their end (stack, order, q: append / pop /
extend at the right end) are represented head-first: the head of the Lean
list is the Python list's last element.  Timestamps that Python prepends to
ledger lines are abstracted away; a ledger entry is the event part of the
line.
-/

namespace BGS

/-! ## Dependency graph and iterative_topological_sort (pipeline.py 105-133) -/

variable {α : Type} [DecidableEq α]

/-- Association-list lookup, modelling a Python dict read graph[v]. -/
def lookupDeps (g : List (α × List α)) (v : α) : Option (List α) :=
  match g with
  | [] => none
  | (k, ds) :: rest => if v = k then some ds else lookupDeps rest v

/-- Dependency list of a node: graph[v].  On the graphs the claims quantify
over every referenced id is a key, so the default never fires (Python would
raise KeyError there). -/
def graphDeps (g : List (α × List α)) (v : α) : List α :=
  (lookupDeps g v).getD []

/-- Key set of the graph dict. -/
def graphKeys (g : List (α × List α)) : List α := g.map Prod.fst

/-- Loop state of iterative_topological_sort: seen set, exploration stack,
finished list (order), work queue q.  All four are head-first images of the
Python lists (head = most recently pushed / appended element). -/
structure TState (α : Type) where
  seen : List α
  stack : List α
  order : List α
  q : List α

/-- Inner while loop (line 129-130): pop trailing stack nodes that do not
have v among their dependencies onto order. -/
def popFinished (deps : α → List α) (v : α) :
    List α → List α → List α × List α
  | [], ord => ([], ord)
  | t :: rest, ord =>
    if v ∈ deps t then (t :: rest, ord)
    else popFinished deps v rest (t :: ord)

/-- One iteration of the outer while loop (lines 123-131) acting on the
popped queue element v and the remaining queue qt. -/
def sortStep (deps : α → List α) (s : TState α) (v : α) (qt : List α) : TState α :=
  if v ∈ s.seen then ⟨s.seen, s.stack, s.order, qt⟩
  else
    let p := popFinished deps v s.stack s.order
    ⟨v :: s.seen, v :: p.1, p.2, (deps v).reverse ++ qt⟩

/-- The outer while loop.  Python iterates until q is empty; the fuel
argument only serves totality, and sortFuel below is proved large enough to
drain q on every dependency-closed graph. -/
def sortLoop (deps : α → List α) : Nat → TState α → TState α
  | 0, s => s
  | fuel + 1, s =>
    match s.q with
    | [] => s
    | v :: qt => sortLoop deps fuel (sortStep deps s v qt)

/-- Upper bound on the number of loop iterations: one initial queue element
plus one queue push per dependency edge. -/
def sortFuel (g : List (α × List α)) : Nat :=
  1 + ((graphKeys g).map (fun k => (graphDeps g k).length)).sum

/-- iterative_topological_sort(graph, start) (lines 105-133).  The Python
return value is stack + order[::-1]; with the head-first representation that
is stack.reverse ++ order. -/
def iterative_topological_sort (g : List (α × List α)) (start : α) : List α :=
  let s := sortLoop (graphDeps g) (sortFuel g) ⟨[], [], [], [start]⟩
  s.stack.reverse ++ s.order

/-- The execution order used by the engine: the reversed sort result
(execute_dask line 154: iterative_topological_sort(graph, key)[::-1]). -/
def executionOrder (g : List (α × List α)) (start : α) : List α :=
  (iterative_topological_sort g start).reverse

/-- Reachability along dependency edges: the target together with all its
transitive dependencies (its ancestor set). -/
inductive Reach (deps : α → List α) (start : α) : α → Prop
  | refl : Reach deps start start
  | step {v d : α} : Reach deps start v → d ∈ deps v → Reach deps start d

/-- Acyclicity witnessed by a rank function that strictly decreases along
dependency edges inside the key set. -/
@[reducible]
def AcyclicRank (deps : α → List α) (K : List α) (rank : α → Nat) : Prop :=
  ∀ v ∈ K, ∀ d ∈ deps v, rank d < rank v

/-- Invariant of the finished list (head = most recently finished): every
element's dependencies appear strictly deeper in the list, i.e. were
finished strictly earlier. -/
def ordOk (deps : α → List α) : List α → Prop
  | [] => True
  | x :: rest => (∀ d ∈ deps x, d ∈ rest) ∧ ordOk deps rest

/-- Segment decomposition of the queue along the stack: the front of the
queue splits into one segment per stack element (topmost stack element
first).  The segment of a stack element t consists of pending queue entries
pushed for t: every entry is a dependency of t or already seen, and every
dependency of t is seen or still pending in the segment.  Whatever follows
the segments of the current stack (older queue content) is unconstrained. -/
def segOk (deps : α → List α) (seen : List α) : List α → List α → Prop
  | [], _q => True
  | t :: rest, q =>
    ∃ A tailQ, q = A ++ tailQ ∧
      (∀ d ∈ deps t, d ∈ seen ∨ d ∈ A) ∧
      (∀ a ∈ A, a ∈ deps t ∨ a ∈ seen) ∧
      segOk deps seen rest tailQ

/-- A list is a valid execution order relative to the already-executed
nodes done: each element's dependencies lie in done or among the elements
before it. -/
def linearOk (deps : α → List α) : List α → List α → Prop
  | _done, [] => True
  | done, x :: rest => (∀ d ∈ deps x, d ∈ done) ∧ linearOk deps (x :: done) rest

/-- Termination potential of the sort loop: queue length plus the total
dependency-list length of the keys not yet seen.  Every loop iteration
strictly decreases it. -/
def phi (deps : α → List α) (K : List α) (s : TState α) : Nat :=
  s.q.length + ((K.filter (fun k => decide (k ∉ s.seen))).map
    (fun k => (deps k).length)).sum

/-- The loop invariant of iterative_topological_sort, relating the state to
the key set K, the graph, and the start node. -/
structure SortInv (deps : α → List α) (K : List α) (start : α) (s : TState α) : Prop where
  seenK : ∀ x ∈ s.seen, x ∈ K
  qK : ∀ x ∈ s.q, x ∈ K
  seenNodup : s.seen.Nodup
  perm : (s.stack ++ s.order).Perm s.seen
  chain : s.stack.Chain' (fun a b => a ∈ deps b)
  ordok : ordOk deps s.order
  closedSeen : ∀ x ∈ s.seen, ∀ d ∈ deps x, d ∈ s.seen ∨ d ∈ s.q
  reachSeen : ∀ x ∈ s.seen, Reach deps start x
  reachQ : ∀ x ∈ s.q, Reach deps start x
  startIn : start ∈ s.seen ∨ start ∈ s.q
  seg : segOk deps s.seen s.stack s.q

/-! ## Execution engine execute_dask (pipeline.py 140-185)

The engine run is modelled as the trace of its observable events: ledger
writes, explicit flushes, stage invocations, timing-store updates, and
process exit.  Stage outcomes are supplied by a function
result : String -> Option Int (None = stage body returned None, i.e.
skipped; some c = exit status c), and measured durations by
dur : String -> Nat in hundredths of a second (the engine stores them
formatted with two decimals). -/

/-- One ledger entry (the event part of a state-file line; the timestamp
prefix is abstracted). -/
inductive Entry
  | startPipeline
  | startStage (k : String)
  | endStage (k : String)
  | endWithoutRun (k : String)
  | failStage (k : String)
  | pipelineSuccess
  | pipelineFailure
deriving DecidableEq

/-- The textual form of a ledger entry as written by execute_dask (without
the "now() | " timestamp prefix). -/
def Entry.render : Entry → String
  | .startPipeline => "START_PIPELINE"
  | .startStage k => "START " ++ k
  | .endStage k => "END " ++ k
  | .endWithoutRun k => "END_WITHOUT_RUN " ++ k
  | .failStage k => "FAIL " ++ k
  | .pipelineSuccess => "PIPELINE_SUCCESS"
  | .pipelineFailure => "PIPELINE_FAILURE"

/-- The stage id a ledger entry is about, if any. -/
def Entry.mentions : Entry → Option String
  | .startPipeline => none
  | .startStage k => some k
  | .endStage k => some k
  | .endWithoutRun k => some k
  | .failStage k => some k
  | .pipelineSuccess => none
  | .pipelineFailure => none

/-- Observable engine events. -/
inductive Ev
  | write (e : Entry)
  | flush
  | invoke (k : String)
  | timing (k : String) (hundredths : Nat)
  | exitProcess (code : Nat)
deriving DecidableEq

/-- The for-loop body of execute_dask (lines 159-182) over the resolved
order, followed by the epilogue at lines 183-184.  Event order mirrors the
source exactly; note that the END_WITHOUT_RUN write (line 181) has no
state.flush() of its own, and that a failing stage ends the run via exit(3)
(line 179). -/
def runStages (result : String → Option Int) (dur : String → Nat) :
    List String → List Ev
  | [] => [Ev.write Entry.pipelineSuccess, Ev.flush]
  | k :: rest =>
    Ev.write (Entry.startStage k) :: Ev.flush :: Ev.invoke k ::
    (match result k with
     | some c =>
       if c = 0 then
         Ev.write (Entry.endStage k) :: Ev.flush :: Ev.timing k (dur k) ::
           runStages result dur rest
       else
         [Ev.write (Entry.failStage k), Ev.flush,
          Ev.write Entry.pipelineFailure, Ev.flush, Ev.exitProcess 3]
     | none => Ev.write (Entry.endWithoutRun k) :: runStages result dur rest)

/-- Full engine trace: START_PIPELINE write and flush (lines 157-158), then
the stage loop. -/
def execute_dask_trace (result : String → Option Int) (dur : String → Nat)
    (order : List String) : List Ev :=
  Ev.write Entry.startPipeline :: Ev.flush :: runStages result dur order

/-- A buffered file: writes go to the buffer, flush moves the buffer to
disk (durable storage). -/
structure FileSt where
  buf : List Entry
  disk : List Entry
deriving DecidableEq

/-- Effect of one engine event on the state file. -/
def applyEv (f : FileSt) : Ev → FileSt
  | Ev.write e => ⟨f.buf ++ [e], f.disk⟩
  | Ev.flush => ⟨[], f.disk ++ f.buf⟩
  | _ => f

/-- File mode used by open(state_file, mode). -/
inductive OpenMode
  | w
  | a

/-- Opening the state file: mode w truncates (execute_dask line 156 opens
with 'w'), mode a would keep the prior contents on disk. -/
def openStateFile : OpenMode → List Entry → FileSt
  | OpenMode.w, _prior => ⟨[], []⟩
  | OpenMode.a, prior => ⟨[], prior⟩

/-- State file after running a trace against a freshly opened file. -/
def runFileFrom (f0 : FileSt) (tr : List Ev) : FileSt := tr.foldl applyEv f0

/-- Final state file of an engine run, starting from the prior on-disk
contents of a previous run (execute_dask opens with 'w'). -/
def execute_dask_ledger (prior : List Entry) (result : String → Option Int)
    (dur : String → Nat) (order : List String) : FileSt :=
  runFileFrom (openStateFile OpenMode.w prior) (execute_dask_trace result dur order)

/-- The events a single stage k contributes to the trace: the START write
and flush, the invocation, then the branch on the stage's outcome.  For a
failing stage this includes the whole failure epilogue, after which the
engine exits. -/
def stageEvents (result : String → Option Int) (dur : String → Nat) (k : String) :
    List Ev :=
  Ev.write (Entry.startStage k) :: Ev.flush :: Ev.invoke k ::
    (match result k with
     | some c =>
       if c = 0 then [Ev.write (Entry.endStage k), Ev.flush, Ev.timing k (dur k)]
       else [Ev.write (Entry.failStage k), Ev.flush,
             Ev.write Entry.pipelineFailure, Ev.flush, Ev.exitProcess 3]
     | none => [Ev.write (Entry.endWithoutRun k)])

/-- The ledger entries written by a trace, in order. -/
def writesOf (tr : List Ev) : List Entry :=
  tr.filterMap (fun e => match e with | Ev.write en => some en | _ => none)

/-- Stages invoked by a trace, in order. -/
def invoked (tr : List Ev) : List String :=
  tr.filterMap (fun e => match e with | Ev.invoke k => some k | _ => none)

/-- The process exit status produced by a trace, if the run terminated the
process (execute_dask only exits through exit(3)). -/
def exitStatus (tr : List Ev) : Option Nat :=
  (tr.filterMap (fun e => match e with | Ev.exitProcess n => some n | _ => none)).head?

/-- The flush discipline of a trace relative to a starting file state:
whenever a stage is invoked, and when the trace ends, the file buffer is
empty, so every ledger entry written earlier is on disk at that point. -/
def flushedAtInvokes : FileSt → List Ev → Bool
  | f, [] => f.buf.isEmpty
  | f, Ev.invoke _ :: tr => f.buf.isEmpty && flushedAtInvokes f tr
  | f, e :: tr => flushedAtInvokes (applyEv f e) tr

/-- Spec-level classification of a stage outcome. -/
inductive StageResult
  | success
  | skipped
  | failed (code : Int)
deriving DecidableEq

/-- How execute_dask interprets the value returned by a stage body (lines
166-181): None is a skip, 0 success, anything else a failure. -/
def classify : Option Int → StageResult
  | none => StageResult.skipped
  | some c => if c = 0 then StageResult.success else StageResult.failed c

/-! ## update_timing (pipeline.py 188-203) -/

/-- Python str.strip on the character list. -/
def stripChars (s : List Char) : List Char :=
  ((s.dropWhile (fun c => c.isWhitespace)).reverse.dropWhile
    (fun c => c.isWhitespace)).reverse

/-- Python str.strip. -/
def pyStrip (s : String) : String := ⟨stripChars s.data⟩

/-- Python str.split(',') helper; the accumulator holds the current field
reversed. -/
def splitCommaAux : List Char → List Char → List (List Char)
  | [], acc => [acc.reverse]
  | c :: rest, acc =>
    if c = ',' then acc.reverse :: splitCommaAux rest []
    else splitCommaAux rest (c :: acc)

/-- Python str.split(','): always returns at least one field. -/
def splitComma (s : String) : List String :=
  (splitCommaAux s.data []).map (fun l => ⟨l⟩)

/-- Python "#" in line (a one-character needle, so substring containment is
character membership). -/
def hasHash (s : String) : Bool := s.data.contains '#'

/-- Python ",".join. -/
def joinComma : List String → String
  | [] => ""
  | [x] => x
  | x :: rest => x ++ "," ++ joinComma rest

/-- Insertion-ordered dict assignment timings[k] = v: replace the value of
the first matching key in place, else append the binding at the end. -/
def dictSet : List (String × List String) → String → List String →
    List (String × List String)
  | [], k, v => [(k, v)]
  | (k', v') :: rest, k, v =>
    if k = k' then (k', v) :: rest else (k', v') :: dictSet rest k v

/-- Python k in timings.keys(). -/
def dictMem (m : List (String × List String)) (k : String) : Bool :=
  m.any (fun p => p.1 == k)

/-- Python timings[k] for a present key (first binding). -/
def dictGet (m : List (String × List String)) (k : String) : List String :=
  match m with
  | [] => []
  | (k', v) :: rest => if k = k' then v else dictGet rest k

/-- The read loop of update_timing (lines 190-196): skip blank lines and
lines containing '#', split the rest on commas, strip each field, and bind
the first field to the remaining fields. -/
def parseTimings (lines : List String) : List (String × List String) :=
  lines.foldl
    (fun tm line =>
      if pyStrip line = "" ∨ hasHash line then tm
      else
        match (splitComma (pyStrip line)).map pyStrip with
        | [] => tm
        | key :: vals => dictSet tm key vals)
    []

/-- update_timing(timing_file, name, time) (lines 188-203) on the file seen
as a list of lines; timeStr is the already formatted duration
("{:.2f}".format(time) in the source). -/
def update_timing (lines : List String) (name timeStr : String) : List String :=
  let timings := parseTimings lines
  let timings' :=
    if dictMem timings name then dictSet timings name (dictGet timings name ++ [timeStr])
    else dictSet timings name [timeStr]
  timings'.map (fun p => p.1 ++ "," ++ joinComma p.2)

/-- The two-decimal formatting "{:.2f}".format(time) for a nonnegative
duration given in hundredths of a second. -/
def fmt2 (n : Nat) : String :=
  toString (n / 100) ++ "." ++ (if n % 100 < 10 then "0" else "") ++ toString (n % 100)

/-- The timing file after an engine trace, starting from its prior lines:
each timing event applies update_timing (line 172). -/
def timingAfter (prior : List String) (tr : List Ev) : List String :=
  tr.foldl
    (fun lines ev =>
      match ev with
      | Ev.timing k n => update_timing lines k (fmt2 n)
      | _ => lines)
    prior

/-! ## CMD.__call__ and Env.compose (pipeline.py 25-72)

CMD.__call__ builds the string
  <shell> <script> --a=b ... 2>&1 | tee -a <log>; exit $\x7bPIPESTATUS[0]\x7d
(with line continuations between the joined parts), wraps it with
Env.compose, and returns the exit status of running it through bash.  The
bash semantics of the tail of that command line is modelled by a two
statement script: a two-element pipeline (inner command, tee) followed by
exit $\x7bPIPESTATUS[0]\x7d. -/

/-- The CMD object: the argv parts joined into the command line, and the
working directory holding state.log. -/
structure CMD where
  cmd : List String
  working_dir : String

/-- CMD.add(name, value) (line 57-58). -/
def CMD.add (c : CMD) (name value : String) : CMD :=
  { c with cmd := c.cmd ++ ["--" ++ name ++ "=" ++ value] }

/-- Python sep.join(parts). -/
def joinWith (sep : String) : List String → String
  | [] => ""
  | [x] => x
  | x :: rest => x ++ sep ++ joinWith sep rest

/-- The logging tail appended to the argv parts (line 65). -/
def teeTail (proc_log : String) : String :=
  "2>&1 | tee -a " ++ proc_log ++ "; exit $\x7bPIPESTATUS[0]\x7d"

/-- run_cmd of CMD.__call__ (line 65): the argv parts and the logging tail
joined with backslash-newline-tab line continuations. -/
def run_cmd_string (c : CMD) : String :=
  joinWith " \\\n\t" (c.cmd ++ [teeTail (c.working_dir ++ "/state.log")])

/-- Env.compose (lines 28-29): wrap in bash -c with single quotes. -/
def Env_compose (cmd : String) : String :=
  "bash -c \x27" ++ cmd ++ "\x27"

/-- A bash statement, as far as the composed command needs: a pipeline of
external commands with the given exit statuses, or exit with the i-th entry
of PIPESTATUS. -/
inductive Stmt
  | pipelineStmt (statuses : List Nat)
  | exitPS (i : Nat)

/-- Run a statement list: a pipeline sets PIPESTATUS to its commands'
statuses and the last status to its final command's status; exit
$\x7bPIPESTATUS[i]\x7d ends the script with that recorded status. -/
def scriptExit : List Stmt → List Nat → Nat → Nat
  | [], _ps, last => last
  | Stmt.pipelineStmt st :: rest, _ps, last => scriptExit rest st (st.getLastD last)
  | Stmt.exitPS i :: _rest, ps, _last => ps.getD i 0

/-- Exit status of a whole bash script. -/
def runScript (s : List Stmt) : Nat := scriptExit s [] 0

/-- The bash script denoted by the command line run_cmd_string builds:
inner command piped into tee -a, then exit $\x7bPIPESTATUS[0]\x7d, given
the exit statuses of the inner command and of tee. -/
def composedStageScript (innerExit teeExit : Nat) : List Stmt :=
  [Stmt.pipelineStmt [innerExit, teeExit], Stmt.exitPS 0]

/-! ## make_working_dir (pipeline.py 75-102)

The filesystem is modelled as the list of existing directory paths that are
immediate children of the root working directory (so the glob pattern
root/name* matches exactly the paths with root/name as a string prefix). -/

/-- Code-point lexicographic comparison of character lists, the order the
Python built-in sorted uses on str values. -/
def charListLe : List Char → List Char → Bool
  | [], _ => true
  | _ :: _, [] => false
  | a :: as, b :: bs =>
    if a.toNat = b.toNat then charListLe as bs
    else decide (a.toNat < b.toNat)

/-- Code-point lexicographic comparison of strings. -/
def strLe (a b : String) : Bool := charListLe a.data b.data

/-- String prefix test on the character lists. -/
def charListPre : List Char → List Char → Bool
  | [], _ => true
  | _ :: _, [] => false
  | a :: as, b :: bs => a = b && charListPre as bs

/-- pre is a prefix of s; glob's pattern pat ++ "*" matches the immediate
children of the root whose path has pat as a prefix. -/
def strPre (pre s : String) : Bool := charListPre pre.data s.data

/-- sorted(glob.glob(os.path.join(root, name + "*"))). -/
def globSorted (fs : List String) (pat : String) : List String :=
  (fs.filter (fun p => strPre pat p)).insertionSort (fun a b => strLe a b = true)

/-- Result of make_working_dir: a returned path with the resulting
filesystem, a FileExistsError from os.makedirs, or the implicit None return
for a do_flag outside 0, 1, 2. -/
inductive MwdResult
  | made (path : String) (fs : List String)
  | alreadyExists (fs : List String)
  | noneReturned (fs : List String)
deriving DecidableEq

/-- Accessor: the filesystem after the call, in every outcome. -/
def MwdResult.fs : MwdResult → List String
  | MwdResult.made _ fs => fs
  | MwdResult.alreadyExists fs => fs
  | MwdResult.noneReturned fs => fs

/-- make_working_dir(root_working_dir, name, do_flag) (lines 75-102).
do_flag 0 returns the most recent matching directory (or the canonical path
when none matches) and touches nothing; do_flag 1 deletes every matching
directory (each deletion guarded by the source's isdir(most_recent) check)
and recreates the canonical path; do_flag 2 creates the canonical path when
nothing matches, else the path suffixed with the match count. -/
def make_working_dir (fs : List String) (root_working_dir name : String)
    (do_flag : Nat) : MwdResult :=
  let pat := root_working_dir ++ "/" ++ name
  let previous_working_dirs := globSorted fs pat
  let working_dir :=
    if previous_working_dirs = [] then pat
    else pat ++ "_" ++ toString previous_working_dirs.length
  let most_recent :=
    if previous_working_dirs = [] then pat
    else previous_working_dirs.getLastD pat
  if do_flag = 0 then MwdResult.made most_recent fs
  else if do_flag = 1 then
    let fs1 := previous_working_dirs.foldl
      (fun acc dir => if most_recent ∈ acc then acc.erase dir else acc) fs
    if pat ∈ fs1 then MwdResult.alreadyExists fs1
    else MwdResult.made pat (fs1 ++ [pat])
  else if do_flag = 2 then
    if working_dir ∈ fs then MwdResult.alreadyExists fs
    else MwdResult.made working_dir (fs ++ [working_dir])
  else MwdResult.noneReturned fs

/-- Example filesystem state: the root working directory contains one
directory for the image_smooth stage and one for the image_smooth_slow
stage (two stage names of the shipped pipeline, main lines 269 and 271,
where the former is a proper prefix of the latter). -/
def smoothFsExample : List String := ["/w/image_smooth", "/w/image_smooth_slow"]

/-! ## Lemmas about the lexicographic order used by sorted() -/

theorem charListLe_refl (l : List Char) : charListLe l l = true := by
  induction l with
  | nil => rfl
  | cons a as ih => simp [charListLe, ih]

theorem charListLe_cons (x y : Char) (xs ys : List Char) :
    charListLe (x :: xs) (y :: ys) =
      if x.toNat = y.toNat then charListLe xs ys else decide (x.toNat < y.toNat) := rfl

theorem charListLe_total (a : List Char) : ∀ b : List Char,
    charListLe a b = true ∨ charListLe b a = true := by
  induction a with
  | nil => intro b; left; rfl
  | cons x xs ih =>
    intro b
    cases b with
    | nil => right; rfl
    | cons y ys =>
      rcases Nat.lt_trichotomy x.toNat y.toNat with hlt | heq | hgt
      · left; rw [charListLe_cons, if_neg (Nat.ne_of_lt hlt)]; exact decide_eq_true hlt
      · rcases ih ys with h | h
        · left; rw [charListLe_cons, if_pos heq]; exact h
        · right; rw [charListLe_cons, if_pos heq.symm]; exact h
      · right; rw [charListLe_cons, if_neg (Nat.ne_of_lt hgt)]; exact decide_eq_true hgt

theorem charListLe_trans (a : List Char) : ∀ b c : List Char,
    charListLe a b = true → charListLe b c = true → charListLe a c = true := by
  induction a with
  | nil => intro b c _ _; rfl
  | cons x xs ih =>
    intro b c hab hbc
    cases b with
    | nil => exact absurd hab (by simp [charListLe])
    | cons y ys =>
      cases c with
      | nil => exact absurd hbc (by simp [charListLe])
      | cons z zs =>
        by_cases hxy : x.toNat = y.toNat
        · by_cases hyz : y.toNat = z.toNat
          · rw [charListLe_cons, if_pos hxy] at hab
            rw [charListLe_cons, if_pos hyz] at hbc
            rw [charListLe_cons, if_pos (hxy.trans hyz)]
            exact ih ys zs hab hbc
          · rw [charListLe_cons, if_pos hxy] at hab
            rw [charListLe_cons, if_neg hyz] at hbc
            have hlt : y.toNat < z.toNat := of_decide_eq_true hbc
            have hxz : ¬ x.toNat = z.toNat := by omega
            rw [charListLe_cons, if_neg hxz]
            exact decide_eq_true (by omega)
        · rw [charListLe_cons, if_neg hxy] at hab
          have hltxy : x.toNat < y.toNat := of_decide_eq_true hab
          by_cases hyz : y.toNat = z.toNat
          · have hxz : ¬ x.toNat = z.toNat := by omega
            rw [charListLe_cons, if_neg hxz]
            exact decide_eq_true (by omega)
          · rw [charListLe_cons, if_neg hyz] at hbc
            have hltyz : y.toNat < z.toNat := of_decide_eq_true hbc
            have hxz : ¬ x.toNat = z.toNat := by omega
            rw [charListLe_cons, if_neg hxz]
            exact decide_eq_true (by omega)

instance strLeTotal : IsTotal String (fun a b => strLe a b = true) :=
  ⟨fun a b => charListLe_total a.data b.data⟩

instance strLeTrans : IsTrans String (fun a b => strLe a b = true) :=
  ⟨fun a b c => charListLe_trans a.data b.data c.data⟩

theorem strLe_refl (s : String) : strLe s s = true := charListLe_refl s.data

theorem getLastD_mem {β : Type} (l : List β) (d : β) (h : l ≠ []) :
    l.getLastD d ∈ l := by
  induction l with
  | nil => exact absurd rfl h
  | cons a as ih =>
    rw [List.getLastD_cons]
    cases as with
    | nil => simp [List.getLastD]
    | cons b bs => exact List.mem_cons_of_mem _ (ih (by simp))

theorem sorted_le_getLastD (l : List String)
    (hs : List.Sorted (fun a b => strLe a b = true) l) :
    ∀ d : String, ∀ x ∈ l, strLe x (l.getLastD d) = true := by
  induction l with
  | nil => intro d x hx; simp at hx
  | cons a as ih =>
    intro d x hx
    rw [List.sorted_cons] at hs
    rw [List.getLastD_cons]
    cases as with
    | nil =>
      simp at hx
      subst hx
      simpa [List.getLastD] using strLe_refl x
    | cons b bs =>
      rcases List.mem_cons.mp hx with rfl | hx'
      · exact hs.1 _ (getLastD_mem (b :: bs) x (by simp))
      · exact ih hs.2 a x hx'

theorem globSorted_sorted (fs : List String) (pat : String) :
    List.Sorted (fun a b => strLe a b = true) (globSorted fs pat) :=
  List.sorted_insertionSort _ _

theorem globSorted_perm (fs : List String) (pat : String) :
    (globSorted fs pat).Perm (fs.filter (fun p => strPre pat p)) :=
  List.perm_insertionSort _ _

theorem mem_globSorted {fs : List String} {pat p : String} :
    p ∈ globSorted fs pat ↔ p ∈ fs ∧ strPre pat p = true := by
  rw [(globSorted_perm fs pat).mem_iff, List.mem_filter]

theorem charListPre_append (l m : List Char) : charListPre l (l ++ m) = true := by
  induction l with
  | nil => rfl
  | cons a as ih => simp [charListPre, ih]

theorem strPre_append (a b : String) : strPre a (a ++ b) = true := by
  have : (a ++ b).data = a.data ++ b.data := rfl
  simpa [strPre, this] using charListPre_append a.data b.data

theorem strPre_self (a : String) : strPre a a = true := by
  have := charListPre_append a.data []
  simpa [strPre] using this

theorem charListPre_trans (a : List Char) : ∀ b c : List Char,
    charListPre a b = true → charListPre b c = true → charListPre a c = true := by
  induction a with
  | nil => intro b c _ _; rfl
  | cons x xs ih =>
    intro b c hab hbc
    cases b with
    | nil => simp [charListPre] at hab
    | cons y ys =>
      cases c with
      | nil => simp [charListPre] at hbc
      | cons z zs =>
        simp [charListPre] at hab hbc ⊢
        exact ⟨hab.1.trans hbc.1, ih ys zs hab.2 hbc.2⟩

theorem charListPre_append_left (l : List Char) : ∀ a b : List Char,
    charListPre a b = true → charListPre (l ++ a) (l ++ b) = true := by
  induction l with
  | nil => intro a b h; simpa using h
  | cons x xs ih => intro a b h; simp [charListPre, ih a b h]

theorem strPre_mono_suffix (root a b : String) (h : strPre a b = true) :
    strPre (root ++ a) (root ++ b) = true := by
  have h1 : (root ++ a).data = root.data ++ a.data := rfl
  have h2 : (root ++ b).data = root.data ++ b.data := rfl
  simp only [strPre, h1, h2]
  exact charListPre_append_left root.data a.data b.data h

theorem strPre_trans {a b c : String} (hab : strPre a b = true)
    (hbc : strPre b c = true) : strPre a c = true :=
  charListPre_trans a.data b.data c.data hab hbc

/-! ## make_working_dir: unfolding lemmas per policy -/

theorem mwd_flag0_eq (fs : List String) (root name : String) :
    make_working_dir fs root name 0 =
      MwdResult.made
        (if globSorted fs (root ++ "/" ++ name) = [] then root ++ "/" ++ name
         else (globSorted fs (root ++ "/" ++ name)).getLastD (root ++ "/" ++ name)) fs := by
  simp [make_working_dir]

theorem strPre_append3 (a b c : String) : strPre a (a ++ b ++ c) = true := by
  rw [String.append_assoc]
  exact strPre_append a (b ++ c)

theorem mwd_flag2_elim {fs fs' : List String} {root name p : String}
    (h : make_working_dir fs root name 2 = MwdResult.made p fs') :
    p = (if globSorted fs (root ++ "/" ++ name) = [] then root ++ "/" ++ name
         else root ++ "/" ++ name ++ "_" ++
           toString (globSorted fs (root ++ "/" ++ name)).length) ∧
    fs' = fs ++ [p] ∧ p ∉ fs := by
  by_cases hprev : globSorted fs (root ++ "/" ++ name) = []
  · rw [if_pos hprev]
    simp only [make_working_dir, hprev, if_true, if_false] at h
    norm_num at h
    split at h
    · injection h
    · rename_i hmem
      injection h with h1 h2
      exact ⟨h1.symm, by rw [← h2, ← h1], h1 ▸ hmem⟩
  · rw [if_neg hprev]
    simp only [make_working_dir, hprev, if_true, if_false] at h
    norm_num at h
    split at h
    · injection h
    · rename_i hmem
      injection h with h1 h2
      exact ⟨h1.symm, by rw [← h2, ← h1], h1 ▸ hmem⟩

/-- C8: under the Reuse policy (do_flag = 0) workspace resolution is
idempotent and side-effect free: it returns the lexicographically last
existing directory matching the stage name (the canonical unsuffixed path
when none matches) and leaves the filesystem unchanged, so a repeated call
yields the same result. -/
theorem reuse_workspace_idempotent (fs : List String) (root name : String) :
    ∃ p : String,
      make_working_dir fs root name 0 = MwdResult.made p fs ∧
      make_working_dir (make_working_dir fs root name 0).fs root name 0 =
        make_working_dir fs root name 0 ∧
      (globSorted fs (root ++ "/" ++ name) = [] → p = root ++ "/" ++ name) ∧
      (globSorted fs (root ++ "/" ++ name) ≠ [] →
        (p ∈ fs ∧ strPre (root ++ "/" ++ name) p = true) ∧
        ∀ q ∈ fs, strPre (root ++ "/" ++ name) q = true → strLe q p = true) := by
  have hfs : (make_working_dir fs root name 0).fs = fs := by
    rw [mwd_flag0_eq]
    rfl
  by_cases hprev : globSorted fs (root ++ "/" ++ name) = []
  · refine ⟨root ++ "/" ++ name, ?_, ?_, fun _ => rfl, fun hne => absurd hprev hne⟩
    · rw [mwd_flag0_eq, if_pos hprev]
    · rw [hfs]
  · refine ⟨(globSorted fs (root ++ "/" ++ name)).getLastD (root ++ "/" ++ name),
      ?_, ?_, fun h => absurd h hprev, fun _ => ⟨?_, ?_⟩⟩
    · rw [mwd_flag0_eq, if_neg hprev]
    · rw [hfs]
    · exact mem_globSorted.mp (getLastD_mem _ _ hprev)
    · intro q hq hqpre
      exact sorted_le_getLastD _ (globSorted_sorted fs _) _ q
        (mem_globSorted.mpr ⟨hq, hqpre⟩)

/-- C8 witness: a concrete Reuse resolution obtained through the theorem. -/
theorem reuse_workspace_idempotent_witness :
    (make_working_dir ["/r/s"] "/r" "s" 0).fs = ["/r/s"] := by
  obtain ⟨p, h1, _h2, _h3, _h4⟩ := reuse_workspace_idempotent ["/r/s"] "/r" "s"
  rw [h1]
  rfl

/-- C7: resolving a stage workspace twice under the Versioned policy
(do_flag = 2) creates two distinct non-colliding directories, the second
suffixed with the (now strictly larger) count of existing matching
directories, and both directories remain on disk afterwards. -/
theorem versioned_workspace_twice {fs fs₁ fs₂ : List String}
    {root name p₁ p₂ : String}
    (h₁ : make_working_dir fs root name 2 = MwdResult.made p₁ fs₁)
    (h₂ : make_working_dir fs₁ root name 2 = MwdResult.made p₂ fs₂) :
    p₁ ≠ p₂ ∧ p₁ ∈ fs₂ ∧ p₂ ∈ fs₂ ∧
    p₂ = root ++ "/" ++ name ++ "_" ++
      toString (globSorted fs₁ (root ++ "/" ++ name)).length ∧
    (globSorted fs (root ++ "/" ++ name)).length <
      (globSorted fs₁ (root ++ "/" ++ name)).length := by
  obtain ⟨hp₁, hfs₁, hnew₁⟩ := mwd_flag2_elim h₁
  obtain ⟨hp₂, hfs₂, hnew₂⟩ := mwd_flag2_elim h₂
  have hpre₁ : strPre (root ++ "/" ++ name) p₁ = true := by
    rw [hp₁]
    split
    · exact strPre_self _
    · exact strPre_append3 _ "_" _
  have hmem₁ : p₁ ∈ fs₁ := by rw [hfs₁]; exact List.mem_append_right _ (by simp)
  have hne : p₁ ≠ p₂ := fun h => hnew₂ (h ▸ hmem₁)
  have hglob₁ : p₁ ∈ globSorted fs₁ (root ++ "/" ++ name) :=
    mem_globSorted.mpr ⟨hmem₁, hpre₁⟩
  have hglobne : globSorted fs₁ (root ++ "/" ++ name) ≠ [] :=
    List.ne_nil_of_mem hglob₁
  have hlen : (globSorted fs₁ (root ++ "/" ++ name)).length =
      (globSorted fs (root ++ "/" ++ name)).length + 1 := by
    rw [(globSorted_perm fs₁ _).length_eq, (globSorted_perm fs _).length_eq, hfs₁,
      List.filter_append]
    simp [hpre₁]
  refine ⟨hne, ?_, ?_, ?_, ?_⟩
  · rw [hfs₂]; exact List.mem_append_left _ hmem₁
  · rw [hfs₂]; exact List.mem_append_right _ (by simp)
  · rw [hp₂, if_neg hglobne]
  · omega

/-- C7 witness: two concrete Versioned resolutions from an empty root. -/
theorem versioned_workspace_twice_witness :
    "/r/s" ≠ "/r/s_1" ∧ "/r/s" ∈ ["/r/s", "/r/s_1"] ∧ "/r/s_1" ∈ ["/r/s", "/r/s_1"] := by
  have h := versioned_workspace_twice
    (show make_working_dir [] "/r" "s" 2 = MwdResult.made "/r/s" ["/r/s"] by decide)
    (show make_working_dir ["/r/s"] "/r" "s" 2 =
      MwdResult.made "/r/s_1" ["/r/s", "/r/s_1"] by decide)
  exact ⟨h.1, h.2.1, h.2.2.1⟩

/-- C9: workspace resolution identifies a stage's directories with the glob
pattern name ++ "*", so a stage whose name is a prefix of another stage's
name counts the other stage's directories among its own: in general every
directory matching the longer name matches the shorter one, and concretely
for image_smooth and image_smooth_slow, Clobber (do_flag 1) on image_smooth
deletes the image_smooth_slow directory, Reuse (do_flag 0) returns the
image_smooth_slow directory, and Versioned (do_flag 2) numbers the new
directory image_smooth_2 because the foreign directory inflates the count. -/
theorem glob_prefix_interference :
    (∀ (fs : List String) (root name₁ name₂ : String),
        strPre name₁ name₂ = true →
        ∀ p ∈ globSorted fs (root ++ "/" ++ name₂),
          p ∈ globSorted fs (root ++ "/" ++ name₁)) ∧
    make_working_dir smoothFsExample "/w" "image_smooth" 1 =
      MwdResult.made "/w/image_smooth" ["/w/image_smooth"] ∧
    "/w/image_smooth_slow" ∉ (make_working_dir smoothFsExample "/w" "image_smooth" 1).fs ∧
    make_working_dir smoothFsExample "/w" "image_smooth" 0 =
      MwdResult.made "/w/image_smooth_slow" smoothFsExample ∧
    make_working_dir smoothFsExample "/w" "image_smooth" 2 =
      MwdResult.made "/w/image_smooth_2" (smoothFsExample ++ ["/w/image_smooth_2"]) := by
  refine ⟨?_, by decide, by decide, by decide, by decide⟩
  intro fs root name₁ name₂ h p hp
  obtain ⟨hfs, hpre₂⟩ := mem_globSorted.mp hp
  have hpre₁₂ : strPre (root ++ "/" ++ name₁) (root ++ "/" ++ name₂) = true :=
    strPre_mono_suffix (root ++ "/") name₁ name₂ h
  exact mem_globSorted.mpr ⟨hfs, strPre_trans hpre₁₂ hpre₂⟩

/-- C9 witness: the image_smooth pattern indeed matches the
image_smooth_slow directory, through the theorem's general part. -/
theorem glob_prefix_interference_witness :
    "/w/image_smooth_slow" ∈ globSorted smoothFsExample "/w/image_smooth" := by
  have h := glob_prefix_interference.1 smoothFsExample "/w" "image_smooth"
    "image_smooth_slow" (by decide) "/w/image_smooth_slow" (by decide)
  simpa using h

/-! ## CMD composition: exit-status propagation -/

/-- C3: the composed command that CMD runs (inner command piped into tee,
then exit with PIPESTATUS entry 0) yields the inner command's exit status
regardless of the exit status of the tee stage: inner 2 with tee 0 gives 2
(classified Failed(2)), inner 0 gives 0 (Success).  The final conjuncts
exhibit the command line CMD builds and its bash -c wrapping. -/
theorem composed_command_exit_status :
    (∀ innerExit teeExit : Nat,
        runScript (composedStageScript innerExit teeExit) = innerExit) ∧
    (∀ teeExit : Nat,
        runScript (composedStageScript 2 teeExit) = 2 ∧
        classify (some (Int.ofNat (runScript (composedStageScript 2 teeExit)))) =
          StageResult.failed 2) ∧
    (∀ teeExit : Nat,
        runScript (composedStageScript 0 teeExit) = 0 ∧
        classify (some (Int.ofNat (runScript (composedStageScript 0 teeExit)))) =
          StageResult.success) ∧
    run_cmd_string ⟨["python", "/scripts/image.py"], "/w/image_smooth"⟩ =
      "python \\\n\t/scripts/image.py \\\n\t2>&1 | tee -a /w/image_smooth/state.log; exit $\x7bPIPESTATUS[0]\x7d" ∧
    Env_compose "cmd" = "bash -c \x27cmd\x27" := by
  exact ⟨fun i t => rfl, fun t => ⟨rfl, rfl⟩, fun t => ⟨rfl, rfl⟩, by decide, by decide⟩

/-! ## Tie-break order of sibling dependencies -/

/-- C4: for a target t whose declared dependency list is left-to-right
x then y, with x and y independent and dependency-free, the resolved
execution order is exactly y, x, t: the last-declared dependency runs
first. -/
theorem tie_break_last_declared {β : Type} [DecidableEq β] (t x y : β)
    (hxt : x ≠ t) (hyt : y ≠ t) (hxy : x ≠ y) :
    executionOrder [(t, [x, y]), (x, ([] : List β)), (y, [])] t = [y, x, t] := by
  set g : List (β × List β) := [(t, [x, y]), (x, []), (y, [])] with hg
  have hdt : graphDeps g t = [x, y] := by simp [graphDeps, lookupDeps, hg]
  have hdx : graphDeps g x = [] := by simp [graphDeps, lookupDeps, hg, hxt]
  have hdy : graphDeps g y = [] := by
    have hyx : y ≠ x := Ne.symm hxy
    simp [graphDeps, lookupDeps, hg, hyt, hyx]
  have hfuel : sortFuel g = 3 := by
    simp [sortFuel, graphKeys, hg, hdt, hdx, hdy]
  have s1 : sortStep (graphDeps g) ⟨[], [], [], [t]⟩ t [] = ⟨[t], [t], [], [y, x]⟩ := by
    simp [sortStep, popFinished, hdt]
  have s2 : sortStep (graphDeps g) ⟨[t], [t], [], [y, x]⟩ y [x] =
      ⟨[y, t], [y, t], [], [x]⟩ := by
    simp [sortStep, popFinished, hdt, hdy, hyt]
  have s3 : sortStep (graphDeps g) ⟨[y, t], [y, t], [], [x]⟩ x [] =
      ⟨[x, y, t], [x, t], [y], []⟩ := by
    simp [sortStep, popFinished, hdt, hdx, hdy, hxt, hxy]
  have hloop : sortLoop (graphDeps g) 3 ⟨[], [], [], [t]⟩ = ⟨[x, y, t], [x, t], [y], []⟩ := by
    have e1 : sortLoop (graphDeps g) 3 ⟨[], [], [], [t]⟩ =
        sortLoop (graphDeps g) 2 (sortStep (graphDeps g) ⟨[], [], [], [t]⟩ t []) := rfl
    rw [e1, s1]
    have e2 : sortLoop (graphDeps g) 2 ⟨[t], [t], [], [y, x]⟩ =
        sortLoop (graphDeps g) 1 (sortStep (graphDeps g) ⟨[t], [t], [], [y, x]⟩ y [x]) := rfl
    rw [e2, s2]
    have e3 : sortLoop (graphDeps g) 1 ⟨[y, t], [y, t], [], [x]⟩ =
        sortLoop (graphDeps g) 0 (sortStep (graphDeps g) ⟨[y, t], [y, t], [], [x]⟩ x []) := rfl
    rw [e3, s3]
    rfl
  show (iterative_topological_sort g t).reverse = [y, x, t]
  rw [iterative_topological_sort, hfuel, hloop]
  rfl

/-- C4 witness: the tie-break order at concrete node ids. -/
theorem tie_break_last_declared_witness :
    executionOrder [(0, [1, 2]), (1, ([] : List Nat)), (2, [])] 0 = [2, 1, 0] :=
  tie_break_last_declared 0 1 2 (by decide) (by decide) (by decide)

/-! ## Engine trace lemmas -/

theorem runStages_cons_skip {result : String → Option Int} (dur : String → Nat)
    {k : String} (h : result k = none) (rest : List String) :
    runStages result dur (k :: rest) =
      stageEvents result dur k ++ runStages result dur rest := by
  simp [runStages, stageEvents, h]

theorem runStages_cons_ok {result : String → Option Int} (dur : String → Nat)
    {k : String} (h : result k = some 0) (rest : List String) :
    runStages result dur (k :: rest) =
      stageEvents result dur k ++ runStages result dur rest := by
  simp [runStages, stageEvents, h]

theorem runStages_cons_fail {result : String → Option Int} (dur : String → Nat)
    {k : String} {c : Int} (h : result k = some c) (hc : c ≠ 0) (rest : List String) :
    runStages result dur (k :: rest) = stageEvents result dur k := by
  simp [runStages, stageEvents, h, hc]

theorem runStages_fail_prefix (result : String → Option Int) (dur : String → Nat)
    (pre : List String) (k : String) (post : List String) (c : Int)
    (hpre : ∀ j ∈ pre, result j = none ∨ result j = some 0)
    (hk : result k = some c) (hc : c ≠ 0) :
    runStages result dur (pre ++ k :: post) =
      (pre.map (stageEvents result dur)).flatten ++ stageEvents result dur k := by
  induction pre with
  | nil => simp [runStages_cons_fail dur hk hc post]
  | cons j js ih =>
    have hrec := ih (fun a ha => hpre a (List.mem_cons_of_mem _ ha))
    rcases hpre j (List.mem_cons_self _ _) with hj | hj
    · rw [List.cons_append, runStages_cons_skip dur hj, hrec]
      simp [List.append_assoc]
    · rw [List.cons_append, runStages_cons_ok dur hj, hrec]
      simp [List.append_assoc]

theorem invoked_append (a b : List Ev) : invoked (a ++ b) = invoked a ++ invoked b := by
  simp [invoked]

theorem invoked_cons_write (e : Entry) (tr : List Ev) :
    invoked (Ev.write e :: tr) = invoked tr := rfl

theorem invoked_cons_flush (tr : List Ev) :
    invoked (Ev.flush :: tr) = invoked tr := rfl

theorem invoked_stageEvents (result : String → Option Int) (dur : String → Nat)
    (j : String) : invoked (stageEvents result dur j) = [j] := by
  rcases hj : result j with _ | c
  · simp [stageEvents, invoked, hj]
  · by_cases hc : c = 0 <;> simp [stageEvents, invoked, hj, hc]

theorem invoked_flatten_map (result : String → Option Int) (dur : String → Nat)
    (pre : List String) :
    invoked ((pre.map (stageEvents result dur)).flatten) = pre := by
  induction pre with
  | nil => rfl
  | cons j js ih =>
    rw [List.map_cons, List.flatten_cons, invoked_append, invoked_stageEvents, ih]
    rfl

theorem mem_invoked_of_mem {tr : List Ev} {j : String}
    (h : Ev.invoke j ∈ tr) : j ∈ invoked tr := by
  rw [invoked, List.mem_filterMap]
  exact ⟨Ev.invoke j, h, rfl⟩

theorem exitStatus_stageEvents_benign {result : String → Option Int}
    (dur : String → Nat) {j : String}
    (hj : result j = none ∨ result j = some 0) :
    (stageEvents result dur j).filterMap
      (fun e => match e with | Ev.exitProcess n => some n | _ => none) = [] := by
  rcases hj with hj | hj <;> simp [stageEvents, hj]

theorem writesOf_append (a b : List Ev) : writesOf (a ++ b) = writesOf a ++ writesOf b := by
  simp [writesOf]

theorem writesOf_cons_write (e : Entry) (tr : List Ev) :
    writesOf (Ev.write e :: tr) = e :: writesOf tr := rfl

theorem writesOf_cons_flush (tr : List Ev) :
    writesOf (Ev.flush :: tr) = writesOf tr := rfl

theorem mem_of_mem_writesOf {tr : List Ev} {e : Entry}
    (h : e ∈ writesOf tr) : Ev.write e ∈ tr := by
  rw [writesOf, List.mem_filterMap] at h
  obtain ⟨ev, hev, hsome⟩ := h
  cases ev <;> simp_all

theorem mentions_stageEvents {result : String → Option Int} {dur : String → Nat}
    {j : String} {e : Entry} (he : e ∈ writesOf (stageEvents result dur j)) :
    Entry.mentions e = some j ∨ Entry.mentions e = none := by
  rcases hj : result j with _ | c
  · simp [stageEvents, writesOf, hj] at he
    rcases he with rfl | rfl <;> simp [Entry.mentions]
  · by_cases hc : c = 0
    · simp [stageEvents, writesOf, hj, hc] at he
      rcases he with rfl | rfl <;> simp [Entry.mentions]
    · simp [stageEvents, writesOf, hj, hc] at he
      rcases he with rfl | rfl | rfl <;> simp [Entry.mentions]

theorem runFileFrom_append (f : FileSt) (a b : List Ev) :
    runFileFrom f (a ++ b) = runFileFrom (runFileFrom f a) b :=
  List.foldl_append _ _ _ _

theorem exit_filterMap_flatten_benign (result : String → Option Int)
    (dur : String → Nat) (pre : List String)
    (hpre : ∀ j ∈ pre, result j = none ∨ result j = some 0) :
    ((pre.map (stageEvents result dur)).flatten).filterMap
      (fun e => match e with | Ev.exitProcess n => some n | _ => none) = [] := by
  induction pre with
  | nil => rfl
  | cons j js ihp =>
    rw [List.map_cons, List.flatten_cons, List.filterMap_append,
      exitStatus_stageEvents_benign dur (hpre j (List.mem_cons_self _ _)),
      ihp (fun a ha => hpre a (List.mem_cons_of_mem _ ha))]
    rfl

theorem mem_writesOf_join {result : String → Option Int} {dur : String → Nat}
    {pre : List String} {e : Entry}
    (he : e ∈ writesOf ((pre.map (stageEvents result dur)).flatten)) :
    ∃ j ∈ pre, e ∈ writesOf (stageEvents result dur j) := by
  induction pre with
  | nil => simp [writesOf] at he
  | cons a as ih =>
    rw [List.map_cons, List.flatten_cons, writesOf_append, List.mem_append] at he
    rcases he with he | he
    · exact ⟨a, List.mem_cons_self _ _, he⟩
    · obtain ⟨j, hj, hje⟩ := ih he
      exact ⟨j, List.mem_cons_of_mem _ hj, hje⟩

theorem runFileFrom_disk_buf : ∀ (tr : List Ev) (f : FileSt),
    (runFileFrom f tr).disk ++ (runFileFrom f tr).buf = f.disk ++ f.buf ++ writesOf tr := by
  intro tr
  induction tr with
  | nil => intro f; simp [runFileFrom, writesOf]
  | cons e tr ih =>
    intro f
    have hstep : runFileFrom f (e :: tr) = runFileFrom (applyEv f e) tr := rfl
    rw [hstep, ih]
    cases e <;> simp [applyEv, writesOf]

theorem runStages_buf (result : String → Option Int) (dur : String → Nat) :
    ∀ (order : List String) (f : FileSt),
      (runFileFrom f (runStages result dur order)).buf = [] := by
  intro order
  induction order with
  | nil => intro f; rfl
  | cons k rest ih =>
    intro f
    rcases h : result k with _ | c
    · rw [runStages_cons_skip dur h, runFileFrom_append]
      exact ih _
    · by_cases hc : c = 0
      · subst hc
        rw [runStages_cons_ok dur h, runFileFrom_append]
        exact ih _
      · rw [runStages_cons_fail dur h hc]
        simp [stageEvents, h, hc, runFileFrom, applyEv]

/-- C2: when every stage before position i succeeds or is skipped and the
stage k at position i returns a non-None, non-zero code, the engine writes
FAIL k then PIPELINE_FAILURE to the ledger, exits the process with status
3, invokes exactly the stages up to and including k, and the final on-disk
ledger holds no entry about any stage other than those. -/
theorem engine_fail_fast (result : String → Option Int) (dur : String → Nat)
    (prior : List Entry) (pre : List String) (k : String) (post : List String) (c : Int)
    (hpre : ∀ j ∈ pre, result j = none ∨ result j = some 0)
    (hk : result k = some c) (hc : c ≠ 0) :
    exitStatus (execute_dask_trace result dur (pre ++ k :: post)) = some 3 ∧
    invoked (execute_dask_trace result dur (pre ++ k :: post)) = pre ++ [k] ∧
    (execute_dask_ledger prior result dur (pre ++ k :: post)).disk =
      Entry.startPipeline ::
        (writesOf ((pre.map (stageEvents result dur)).flatten) ++
          [Entry.startStage k, Entry.failStage k, Entry.pipelineFailure]) ∧
    (∀ j, j ∉ pre → j ≠ k →
      Ev.invoke j ∉ execute_dask_trace result dur (pre ++ k :: post) ∧
      ∀ e ∈ (execute_dask_ledger prior result dur (pre ++ k :: post)).disk,
        Entry.mentions e ≠ some j) := by
  have htr : runStages result dur (pre ++ k :: post) =
      (pre.map (stageEvents result dur)).flatten ++ stageEvents result dur k :=
    runStages_fail_prefix result dur pre k post c hpre hk hc
  have hse : stageEvents result dur k =
      [Ev.write (Entry.startStage k), Ev.flush, Ev.invoke k,
       Ev.write (Entry.failStage k), Ev.flush,
       Ev.write Entry.pipelineFailure, Ev.flush, Ev.exitProcess 3] := by
    simp [stageEvents, hk, hc]
  have hwk : writesOf (stageEvents result dur k) =
      [Entry.startStage k, Entry.failStage k, Entry.pipelineFailure] := by
    rw [hse]
    rfl
  have hinvtr : invoked (execute_dask_trace result dur (pre ++ k :: post)) = pre ++ [k] := by
    rw [execute_dask_trace, htr, invoked_cons_write, invoked_cons_flush, invoked_append,
      invoked_flatten_map, invoked_stageEvents]
  have hdisk : (execute_dask_ledger prior result dur (pre ++ k :: post)).disk =
      Entry.startPipeline ::
        (writesOf ((pre.map (stageEvents result dur)).flatten) ++
          [Entry.startStage k, Entry.failStage k, Entry.pipelineFailure]) := by
    have hbuf : (execute_dask_ledger prior result dur (pre ++ k :: post)).buf = [] := by
      rw [execute_dask_ledger, execute_dask_trace]
      have hstep : runFileFrom (openStateFile OpenMode.w prior)
          (Ev.write Entry.startPipeline :: Ev.flush :: runStages result dur (pre ++ k :: post)) =
          runFileFrom ⟨[], [Entry.startPipeline]⟩ (runStages result dur (pre ++ k :: post)) := rfl
      rw [hstep]
      exact runStages_buf result dur _ _
    have hdb := runFileFrom_disk_buf
      (execute_dask_trace result dur (pre ++ k :: post)) (openStateFile OpenMode.w prior)
    rw [execute_dask_ledger] at hbuf ⊢
    rw [hbuf, List.append_nil] at hdb
    rw [hdb]
    rw [execute_dask_trace, htr, writesOf_cons_write, writesOf_cons_flush, writesOf_append,
      hwk]
    rfl
  refine ⟨?_, hinvtr, hdisk, ?_⟩
  · rw [execute_dask_trace, htr]
    have hjoin := exit_filterMap_flatten_benign result dur pre hpre
    rw [exitStatus]
    simp only [List.filterMap_cons, List.filterMap_append, hjoin]
    rw [hse]
    rfl
  · intro j hjpre hjk
    constructor
    · intro hmem
      have := mem_invoked_of_mem hmem
      rw [hinvtr] at this
      rcases List.mem_append.mp this with h | h
      · exact hjpre h
      · simp at h; exact hjk h
    · intro e he hme
      rw [hdisk] at he
      rcases List.mem_cons.mp he with rfl | he
      · simp [Entry.mentions] at hme
      rcases List.mem_append.mp he with he | he
      · obtain ⟨j', hj', hje⟩ := mem_writesOf_join he
        rcases mentions_stageEvents hje with hm | hm
        · rw [hm] at hme
          injection hme with hme
          exact hjpre (hme ▸ hj')
        · rw [hm] at hme
          exact Option.noConfusion hme
      · simp at he
        rcases he with rfl | rfl | rfl <;> simp [Entry.mentions] at hme <;>
          exact hjk hme.symm

/-- C2 witness: stage a succeeds, stage b fails with code 2; exit status is
3 and exactly a and b are invoked. -/
theorem engine_fail_fast_witness :
    exitStatus (execute_dask_trace (fun s => if s = "a" then some 0 else some 2)
      (fun _ => 0) (["a"] ++ "b" :: [])) = some 3 ∧
    invoked (execute_dask_trace (fun s => if s = "a" then some 0 else some 2)
      (fun _ => 0) (["a"] ++ "b" :: [])) = ["a"] ++ ["b"] := by
  have h := engine_fail_fast (fun s => if s = "a" then some 0 else some 2)
    (fun _ => 0) [] ["a"] "b" [] 2 (by decide) (by decide) (by decide)
  exact ⟨h.1, h.2.1⟩

/-! ## Flush discipline of the ledger -/

theorem flushedAtInvokes_invoke (f : FileSt) (k : String) (tr : List Ev) :
    flushedAtInvokes f (Ev.invoke k :: tr) = (f.buf.isEmpty && flushedAtInvokes f tr) := rfl

theorem flushedAtInvokes_write (f : FileSt) (e : Entry) (tr : List Ev) :
    flushedAtInvokes f (Ev.write e :: tr) =
      flushedAtInvokes (applyEv f (Ev.write e)) tr := rfl

theorem flushedAtInvokes_flush (f : FileSt) (tr : List Ev) :
    flushedAtInvokes f (Ev.flush :: tr) = flushedAtInvokes (applyEv f Ev.flush) tr := rfl

theorem flushedAtInvokes_timing (f : FileSt) (k : String) (n : Nat) (tr : List Ev) :
    flushedAtInvokes f (Ev.timing k n :: tr) =
      flushedAtInvokes (applyEv f (Ev.timing k n)) tr := rfl

theorem flushedAtInvokes_exitProcess (f : FileSt) (n : Nat) (tr : List Ev) :
    flushedAtInvokes f (Ev.exitProcess n :: tr) =
      flushedAtInvokes (applyEv f (Ev.exitProcess n)) tr := rfl

theorem flushedAtInvokes_correct : ∀ (tr : List Ev) (f : FileSt),
    flushedAtInvokes f tr = true →
    (runFileFrom f tr).buf = [] ∧
    ∀ pre j post, tr = pre ++ Ev.invoke j :: post → (runFileFrom f pre).buf = [] := by
  intro tr
  induction tr with
  | nil =>
    intro f h
    have h' : f.buf.isEmpty = true := h
    rw [List.isEmpty_iff] at h'
    refine ⟨h', ?_⟩
    intro pre j post hsplit
    exact absurd hsplit (by simp)
  | cons e tr ih =>
    intro f h
    cases e with
    | invoke k =>
      rw [flushedAtInvokes_invoke, Bool.and_eq_true] at h
      obtain ⟨hbuf, htr⟩ := h
      refine ⟨(ih f htr).1, ?_⟩
      intro pre j post hsplit
      cases pre with
      | nil => simpa using hbuf
      | cons a pre' =>
        injection hsplit with h1 h2
        have hres := (ih f htr).2 pre' j post h2
        have hstep : runFileFrom f (a :: pre') = runFileFrom (applyEv f a) pre' := rfl
        rw [hstep, ← h1]
        exact hres
    | write en =>
      rw [flushedAtInvokes_write] at h
      refine ⟨(ih _ h).1, ?_⟩
      intro pre j post hsplit
      cases pre with
      | nil => exact absurd hsplit (by simp)
      | cons a pre' =>
        injection hsplit with h1 h2
        have hres := (ih _ h).2 pre' j post h2
        have hstep : runFileFrom f (a :: pre') = runFileFrom (applyEv f a) pre' := rfl
        rw [hstep, ← h1]
        exact hres
    | flush =>
      rw [flushedAtInvokes_flush] at h
      refine ⟨(ih _ h).1, ?_⟩
      intro pre j post hsplit
      cases pre with
      | nil => exact absurd hsplit (by simp)
      | cons a pre' =>
        injection hsplit with h1 h2
        have hres := (ih _ h).2 pre' j post h2
        have hstep : runFileFrom f (a :: pre') = runFileFrom (applyEv f a) pre' := rfl
        rw [hstep, ← h1]
        exact hres
    | timing k n =>
      rw [flushedAtInvokes_timing] at h
      refine ⟨(ih _ h).1, ?_⟩
      intro pre j post hsplit
      cases pre with
      | nil => exact absurd hsplit (by simp)
      | cons a pre' =>
        injection hsplit with h1 h2
        have hres := (ih _ h).2 pre' j post h2
        have hstep : runFileFrom f (a :: pre') = runFileFrom (applyEv f a) pre' := rfl
        rw [hstep, ← h1]
        exact hres
    | exitProcess n =>
      rw [flushedAtInvokes_exitProcess] at h
      refine ⟨(ih _ h).1, ?_⟩
      intro pre j post hsplit
      cases pre with
      | nil => exact absurd hsplit (by simp)
      | cons a pre' =>
        injection hsplit with h1 h2
        have hres := (ih _ h).2 pre' j post h2
        have hstep : runFileFrom f (a :: pre') = runFileFrom (applyEv f a) pre' := rfl
        rw [hstep, ← h1]
        exact hres

theorem flushedAt_runStages (result : String → Option Int) (dur : String → Nat) :
    ∀ (order : List String) (f : FileSt),
      flushedAtInvokes f (runStages result dur order) = true := by
  intro order
  induction order with
  | nil => intro f; rfl
  | cons k rest ih =>
    intro f
    rcases h : result k with _ | c
    · rw [runStages_cons_skip dur h]
      have hsk : stageEvents result dur k ++ runStages result dur rest =
          Ev.write (Entry.startStage k) :: Ev.flush :: Ev.invoke k ::
            Ev.write (Entry.endWithoutRun k) :: runStages result dur rest := by
        simp [stageEvents, h]
      rw [hsk, flushedAtInvokes_write, flushedAtInvokes_flush, flushedAtInvokes_invoke,
        flushedAtInvokes_write]
      simp only [applyEv]
      rw [Bool.and_eq_true]
      exact ⟨rfl, ih _⟩
    · by_cases hc : c = 0
      · subst hc
        rw [runStages_cons_ok dur h]
        have hsk : stageEvents result dur k ++ runStages result dur rest =
            Ev.write (Entry.startStage k) :: Ev.flush :: Ev.invoke k ::
              Ev.write (Entry.endStage k) :: Ev.flush :: Ev.timing k (dur k) ::
                runStages result dur rest := by
          simp [stageEvents, h]
        rw [hsk, flushedAtInvokes_write, flushedAtInvokes_flush, flushedAtInvokes_invoke,
          flushedAtInvokes_write, flushedAtInvokes_flush, flushedAtInvokes_timing]
        simp only [applyEv]
        rw [Bool.and_eq_true]
        exact ⟨rfl, ih _⟩
      · rw [runStages_cons_fail dur h hc]
        have hsk : stageEvents result dur k =
            [Ev.write (Entry.startStage k), Ev.flush, Ev.invoke k,
             Ev.write (Entry.failStage k), Ev.flush,
             Ev.write Entry.pipelineFailure, Ev.flush, Ev.exitProcess 3] := by
          simp [stageEvents, h, hc]
        rw [hsk]
        rfl

/-- C5: every ledger write is durably flushed before the engine invokes the
next stage and before the run finishes: starting from the freshly opened
state file, the buffer is empty at every invoke event of the engine trace
and at the end of the trace.  In particular the END_WITHOUT_RUN entry of a
skipped stage, though it has no flush of its own, reaches disk through the
flush that precedes the following stage's invocation. -/
theorem ledger_flush_discipline (result : String → Option Int) (dur : String → Nat)
    (order : List String) :
    flushedAtInvokes (openStateFile OpenMode.w [])
      (execute_dask_trace result dur order) = true ∧
    (runFileFrom (openStateFile OpenMode.w [])
      (execute_dask_trace result dur order)).buf = [] ∧
    ∀ pre j post,
      execute_dask_trace result dur order = pre ++ Ev.invoke j :: post →
      (runFileFrom (openStateFile OpenMode.w []) pre).buf = [] := by
  have hfl : flushedAtInvokes (openStateFile OpenMode.w [])
      (execute_dask_trace result dur order) = true := by
    rw [execute_dask_trace, flushedAtInvokes_write, flushedAtInvokes_flush]
    exact flushedAt_runStages result dur order _
  have hc := flushedAtInvokes_correct _ _ hfl
  exact ⟨hfl, hc.1, hc.2⟩

/-- C5 witness: in a two-stage run where stage a is skipped, the buffer is
empty just before stage b is invoked, so the unflushed END_WITHOUT_RUN
entry of a is on disk by then. -/
theorem ledger_flush_discipline_witness :
    (runFileFrom (openStateFile OpenMode.w [])
      [Ev.write Entry.startPipeline, Ev.flush,
       Ev.write (Entry.startStage "a"), Ev.flush, Ev.invoke "a",
       Ev.write (Entry.endWithoutRun "a"),
       Ev.write (Entry.startStage "b"), Ev.flush]).buf = [] := by
  have h := (ledger_flush_discipline (fun _ => none) (fun _ => 0) ["a", "b"]).2.2
  exact h
    [Ev.write Entry.startPipeline, Ev.flush,
     Ev.write (Entry.startStage "a"), Ev.flush, Ev.invoke "a",
     Ev.write (Entry.endWithoutRun "a"),
     Ev.write (Entry.startStage "b"), Ev.flush] "b"
    [Ev.write (Entry.endWithoutRun "b"), Ev.write Entry.pipelineSuccess, Ev.flush]
    (by decide)

/-! ## Timing store accumulation -/

theorem timing_not_in_runStages {result : String → Option Int} (dur : String → Nat)
    {k : String} (h : result k = none) :
    ∀ (order : List String) (n : Nat), Ev.timing k n ∉ runStages result dur order := by
  intro order
  induction order with
  | nil => intro n hmem; simp [runStages] at hmem
  | cons j rest ih =>
    intro n hmem
    rcases hj : result j with _ | c
    · rw [runStages_cons_skip dur hj] at hmem
      rcases List.mem_append.mp hmem with hm | hm
      · simp [stageEvents, hj] at hm
      · exact ih n hm
    · by_cases hc : c = 0
      · subst hc
        rw [runStages_cons_ok dur hj] at hmem
        rcases List.mem_append.mp hmem with hm | hm
        · simp [stageEvents, hj] at hm
          obtain ⟨hkj, -⟩ := hm
          rw [hkj] at h
          rw [h] at hj
          exact Option.noConfusion hj
        · exact ih n hm
      · rw [runStages_cons_fail dur hj hc] at hmem
        simp [stageEvents, hj, hc] at hmem

/-- C6: the timing store accumulates across runs.  Two successful runs of
stage s with measured durations 1.23 and 4.56 leave the single timing line
s,1.23,4.56 (both through update_timing directly and through the engine
trace applied twice); and a skipped stage produces no timing event at all,
leaving the timing file untouched. -/
theorem timing_file_accumulates :
    update_timing (update_timing [] "s" (fmt2 123)) "s" (fmt2 456) = ["s,1.23,4.56"] ∧
    timingAfter
      (timingAfter [] (execute_dask_trace (fun _ => some 0) (fun _ => 123) ["s"]))
      (execute_dask_trace (fun _ => some 0) (fun _ => 456) ["s"]) = ["s,1.23,4.56"] ∧
    (∀ (result : String → Option Int) (dur : String → Nat) (order : List String)
        (k : String), result k = none →
        ∀ n : Nat, Ev.timing k n ∉ execute_dask_trace result dur order) ∧
    (∀ prior : List String,
        timingAfter prior (execute_dask_trace (fun _ => none) (fun _ => 0) ["s"]) = prior) := by
  refine ⟨by decide, by decide, ?_, fun prior => rfl⟩
  intro result dur order k hk n hmem
  rw [execute_dask_trace] at hmem
  rcases List.mem_cons.mp hmem with hm | hm
  · exact Ev.noConfusion hm
  rcases List.mem_cons.mp hm with hm' | hm'
  · exact Ev.noConfusion hm'
  · exact timing_not_in_runStages dur hk order n hm'

/-- C6 witness: a concrete skipped stage produces no timing event. -/
theorem timing_file_accumulates_witness :
    Ev.timing "s" 7 ∉ execute_dask_trace (fun _ => none) (fun _ => 7) ["s"] :=
  timing_file_accumulates.2.2.1 (fun _ => none) (fun _ => 7) ["s"] "s" rfl 7

/-! ## Per-run truncation of the state file -/

/-- C10: execute_dask opens the state file in write mode, which truncates
it: the final ledger is independent of whatever a previous run left on
disk, and every entry it holds was written by the current run's trace.  The
last conjuncts contrast mode w (truncate) with mode a (append). -/
theorem ledger_truncated_each_run (result : String → Option Int) (dur : String → Nat)
    (order : List String) (prior prior' : List Entry) :
    execute_dask_ledger prior result dur order =
      execute_dask_ledger prior' result dur order ∧
    (∀ e ∈ (execute_dask_ledger prior result dur order).disk,
        Ev.write e ∈ execute_dask_trace result dur order) ∧
    openStateFile OpenMode.w prior = ⟨[], []⟩ ∧
    openStateFile OpenMode.a prior = ⟨[], prior⟩ := by
  refine ⟨rfl, ?_, rfl, rfl⟩
  intro e he
  have hdb := runFileFrom_disk_buf (execute_dask_trace result dur order)
    (openStateFile OpenMode.w prior)
  have hmem : e ∈ writesOf (execute_dask_trace result dur order) := by
    have : e ∈ (runFileFrom (openStateFile OpenMode.w prior)
        (execute_dask_trace result dur order)).disk ++
        (runFileFrom (openStateFile OpenMode.w prior)
          (execute_dask_trace result dur order)).buf :=
      List.mem_append_left _ he
    rw [hdb] at this
    simpa [openStateFile] using this
  exact mem_of_mem_writesOf hmem

/-- C10 witness: the START_PIPELINE entry on the final disk stems from a
write of the current trace, independent of the prior contents. -/
theorem ledger_truncated_each_run_witness :
    Ev.write Entry.startPipeline ∈
      execute_dask_trace (fun _ => some 0) (fun _ => 0) ["a"] := by
  have h := (ledger_truncated_each_run (fun _ => some 0) (fun _ => 0) ["a"]
    [Entry.pipelineFailure] []).2.1
  exact h Entry.startPipeline (by decide)

/-! ## Correctness of iterative_topological_sort

The proof runs the loop invariant SortInv through the loop.  The crucial
fact is that whenever the inner while loop moves a stack element to the
finished list, all of that element's dependencies are already finished; it
rests on the segment decomposition segOk of the queue. -/

theorem segOk_mono {deps : α → List α} {seen seen' : List α}
    (hsub : ∀ x ∈ seen, x ∈ seen') :
    ∀ (stack q : List α), segOk deps seen stack q → segOk deps seen' stack q := by
  intro stack
  induction stack with
  | nil => intro q _; trivial
  | cons t rest ih =>
    intro q hseg
    obtain ⟨A, tailQ, hq, hAin, hAsub, hrest⟩ := hseg
    exact ⟨A, tailQ, hq,
      fun d hd => (hAin d hd).imp (hsub d) id,
      fun a ha => (hAsub a ha).imp id (hsub a),
      ih tailQ hrest⟩

theorem segOk_consume {deps : α → List α} {seen seen' : List α} {v : α}
    (hsub : ∀ x ∈ seen, x ∈ seen') (hv : v ∈ seen') :
    ∀ (stack qt : List α), segOk deps seen stack (v :: qt) →
      segOk deps seen' stack qt := by
  intro stack
  induction stack generalizing seen with
  | nil => intro qt _; trivial
  | cons t rest ih =>
    intro qt hseg
    obtain ⟨A, tailQ, hq, hAin, hAsub, hrest⟩ := hseg
    cases A with
    | nil =>
      refine ⟨[], qt, rfl, ?_, by simp, ?_⟩
      · intro d hd
        rcases hAin d hd with hd' | hd'
        · exact Or.inl (hsub d hd')
        · exact absurd hd' (List.not_mem_nil d)
      · simp only [List.nil_append] at hq
        exact ih hsub qt (hq ▸ hrest)
    | cons a A' =>
      rw [List.cons_append] at hq
      injection hq with ha hq'
      refine ⟨A', tailQ, hq', ?_, ?_, segOk_mono hsub rest tailQ hrest⟩
      · intro d hd
        rcases hAin d hd with hd' | hd'
        · exact Or.inl (hsub d hd')
        · rcases List.mem_cons.mp hd' with rfl | hd''
          · exact Or.inl (ha ▸ hv)
          · exact Or.inr hd''
      · intro x hx
        exact (hAsub x (List.mem_cons_of_mem a hx)).imp id (hsub x)

theorem chain_rank_lt {deps : α → List α} {K : List α} {rank : α → Nat}
    (hrank : AcyclicRank deps K rank) :
    ∀ (rest : List α) (t : α),
      List.Chain' (fun a b => a ∈ deps b) (t :: rest) →
      (∀ x ∈ t :: rest, x ∈ K) → ∀ r ∈ rest, rank t < rank r := by
  intro rest
  induction rest with
  | nil => intro t _ _ r hr; exact absurd hr (List.not_mem_nil r)
  | cons b bs ih =>
    intro t hchain hK r hr
    obtain ⟨h1, h2⟩ := List.chain'_cons.mp hchain
    have htb : rank t < rank b := hrank b (hK b (by simp)) t h1
    rcases List.mem_cons.mp hr with rfl | hr'
    · exact htb
    · exact lt_trans htb (ih b h2 (fun x hx => hK x (List.mem_cons_of_mem _ hx)) r hr')

theorem pop_dep_in_order {deps : α → List α} {K : List α} {rank : α → Nat}
    (hrank : AcyclicRank deps K rank)
    {t : α} {rest order seen : List α}
    (hchain : List.Chain' (fun a b => a ∈ deps b) (t :: rest))
    (hK : ∀ x ∈ t :: rest, x ∈ K)
    (hperm : ((t :: rest) ++ order).Perm seen)
    (hsub : ∀ d ∈ deps t, d ∈ seen) :
    ∀ d ∈ deps t, d ∈ order := by
  intro d hd
  have hdmem : d ∈ (t :: rest) ++ order := hperm.symm.subset (hsub d hd)
  rcases List.mem_append.mp hdmem with hd' | hd'
  · exfalso
    have hdt : rank d < rank t := hrank t (hK t (by simp)) d hd
    rcases List.mem_cons.mp hd' with rfl | hd''
    · exact lt_irrefl _ hdt
    · exact lt_irrefl _ (lt_trans hdt (chain_rank_lt hrank rest t hchain hK d hd''))
  · exact hd'

theorem popFinished_cons (deps : α → List α) (v t : α) (rest ord : List α) :
    popFinished deps v (t :: rest) ord =
      if v ∈ deps t then (t :: rest, ord) else popFinished deps v rest (t :: ord) := rfl

theorem popFinished_spec {deps : α → List α} {K : List α} {rank : α → Nat}
    (hrank : AcyclicRank deps K rank) (v : α) (seen qt : List α) (hv : v ∉ seen) :
    ∀ (stack order : List α),
      List.Chain' (fun a b => a ∈ deps b) stack →
      (∀ x ∈ stack, x ∈ K) →
      ((stack ++ order).Perm seen) →
      ordOk deps order →
      segOk deps seen stack (v :: qt) →
      ((popFinished deps v stack order).1 ++
        (popFinished deps v stack order).2).Perm (stack ++ order) ∧
      List.Chain' (fun a b => a ∈ deps b) (popFinished deps v stack order).1 ∧
      ((popFinished deps v stack order).1 = [] ∨
        ∃ h rest', (popFinished deps v stack order).1 = h :: rest' ∧ v ∈ deps h) ∧
      ordOk deps (popFinished deps v stack order).2 ∧
      segOk deps (v :: seen) (popFinished deps v stack order).1 qt := by
  intro stack
  induction stack with
  | nil =>
    intro order _ _ _ hord _
    exact ⟨List.Perm.refl _, List.chain'_nil, Or.inl rfl, hord, trivial⟩
  | cons t rest ih =>
    intro order hchain hK hperm hord hseg
    by_cases hvt : v ∈ deps t
    · rw [popFinished_cons, if_pos hvt]
      refine ⟨List.Perm.refl _, hchain, Or.inr ⟨t, rest, rfl, hvt⟩, hord, ?_⟩
      exact segOk_consume (fun x hx => List.mem_cons_of_mem v hx)
        (List.mem_cons_self v seen) (t :: rest) qt hseg
    · rw [popFinished_cons, if_neg hvt]
      obtain ⟨A, tailQ, hq, hAin, hAsub, hrest⟩ := hseg
      have hA : A = [] := by
        cases A with
        | nil => rfl
        | cons a A' =>
          exfalso
          rw [List.cons_append] at hq
          injection hq with ha _
          rcases hAsub a (List.mem_cons_self a A') with h' | h'
          · exact hvt (ha ▸ h')
          · exact hv (ha ▸ h')
      subst hA
      simp only [List.nil_append] at hq
      have hsubt : ∀ d ∈ deps t, d ∈ seen := by
        intro d hd
        rcases hAin d hd with h' | h'
        · exact h'
        · exact absurd h' (List.not_mem_nil d)
      have hdord : ∀ d ∈ deps t, d ∈ order :=
        pop_dep_in_order hrank hchain hK hperm hsubt
      have hperm' : (rest ++ t :: order).Perm seen :=
        List.Perm.trans List.perm_middle hperm
      have hres := ih (t :: order) (List.Chain'.tail hchain)
        (fun x hx => hK x (List.mem_cons_of_mem _ hx)) hperm'
        ⟨hdord, hord⟩ (hq ▸ hrest)
      exact ⟨List.Perm.trans hres.1 List.perm_middle,
        hres.2.1, hres.2.2.1, hres.2.2.2.1, hres.2.2.2.2⟩

theorem sortStep_inv {deps : α → List α} {K : List α} {rank : α → Nat} {start : α}
    (hclosed : ∀ k ∈ K, ∀ d ∈ deps k, d ∈ K)
    (hrank : AcyclicRank deps K rank)
    {s : TState α} {v : α} {qt : List α}
    (hq : s.q = v :: qt) (hinv : SortInv deps K start s) :
    SortInv deps K start (sortStep deps s v qt) := by
  have hvq : v ∈ s.q := hq ▸ List.mem_cons_self v qt
  by_cases hv : v ∈ s.seen
  · rw [sortStep, if_pos hv]
    refine ⟨hinv.seenK, ?_, hinv.seenNodup, hinv.perm, hinv.chain, hinv.ordok,
      ?_, hinv.reachSeen, ?_, ?_, ?_⟩
    · intro x hx
      exact hinv.qK x (hq ▸ List.mem_cons_of_mem v hx)
    · intro x hx d hd
      rcases hinv.closedSeen x hx d hd with h' | h'
      · exact Or.inl h'
      · rw [hq] at h'
        rcases List.mem_cons.mp h' with rfl | h''
        · exact Or.inl hv
        · exact Or.inr h''
    · intro x hx
      exact hinv.reachQ x (hq ▸ List.mem_cons_of_mem v hx)
    · rcases hinv.startIn with h' | h'
      · exact Or.inl h'
      · rw [hq] at h'
        rcases List.mem_cons.mp h' with rfl | h''
        · exact Or.inl hv
        · exact Or.inr h''
    · exact segOk_consume (fun x hx => hx) hv s.stack qt (hq ▸ hinv.seg)
  · rw [sortStep, if_neg hv]
    have hvK : v ∈ K := hinv.qK v hvq
    have hstackK : ∀ x ∈ s.stack, x ∈ K := fun x hx =>
      hinv.seenK x (hinv.perm.subset (List.mem_append_left _ hx))
    have hres := popFinished_spec hrank v s.seen qt hv s.stack s.order
      hinv.chain hstackK hinv.perm hinv.ordok (hq ▸ hinv.seg)
    refine ⟨?_, ?_, ?_, ?_, ?_, hres.2.2.2.1, ?_, ?_, ?_, ?_, ?_⟩
    · intro x hx
      rcases List.mem_cons.mp hx with rfl | hx'
      · exact hvK
      · exact hinv.seenK x hx'
    · intro x hx
      rcases List.mem_append.mp hx with hx' | hx'
      · exact hclosed v hvK x (List.mem_reverse.mp hx')
      · exact hinv.qK x (hq ▸ List.mem_cons_of_mem v hx')
    · exact List.nodup_cons.mpr ⟨hv, hinv.seenNodup⟩
    · exact List.Perm.trans (hres.1.cons v) (hinv.perm.cons v)
    · show List.Chain' (fun a b => a ∈ deps b)
        (v :: (popFinished deps v s.stack s.order).1)
      rcases hres.2.2.1 with h' | ⟨h, rest', hp, hvh⟩
      · rw [h']
        exact List.chain'_singleton v
      · rw [hp]
        exact List.chain'_cons.mpr ⟨hvh, hp ▸ hres.2.1⟩
    · intro x hx d hd
      rcases List.mem_cons.mp hx with rfl | hx'
      · exact Or.inr (List.mem_append_left _ (List.mem_reverse.mpr hd))
      · rcases hinv.closedSeen x hx' d hd with h' | h'
        · exact Or.inl (List.mem_cons_of_mem v h')
        · rw [hq] at h'
          rcases List.mem_cons.mp h' with rfl | h''
          · exact Or.inl (List.mem_cons_self d _)
          · exact Or.inr (List.mem_append_right _ h'')
    · intro x hx
      rcases List.mem_cons.mp hx with rfl | hx'
      · exact hinv.reachQ x hvq
      · exact hinv.reachSeen x hx'
    · intro x hx
      rcases List.mem_append.mp hx with hx' | hx'
      · exact Reach.step (hinv.reachQ v hvq) (List.mem_reverse.mp hx')
      · exact hinv.reachQ x (hq ▸ List.mem_cons_of_mem v hx')
    · rcases hinv.startIn with h' | h'
      · exact Or.inl (List.mem_cons_of_mem v h')
      · rw [hq] at h'
        rcases List.mem_cons.mp h' with rfl | h''
        · exact Or.inl (List.mem_cons_self start _)
        · exact Or.inr (List.mem_append_right _ h'')
    · exact ⟨(deps v).reverse, qt, rfl,
        fun d hd => Or.inr (List.mem_reverse.mpr hd),
        fun a ha => Or.inl (List.mem_reverse.mp ha),
        hres.2.2.2.2⟩

theorem filter_map_sum_le_of_imp (p q : α → Bool)
    (himp : ∀ x, p x = true → q x = true) (f : α → Nat) :
    ∀ K : List α, ((K.filter p).map f).sum ≤ ((K.filter q).map f).sum := by
  intro K
  induction K with
  | nil => exact Nat.le_refl 0
  | cons a as ih =>
    rw [List.filter_cons, List.filter_cons]
    by_cases hpa : p a = true
    · rw [if_pos hpa, if_pos (himp a hpa)]
      simp only [List.map_cons, List.sum_cons]
      omega
    · rw [if_neg hpa]
      by_cases hqa : q a = true
      · rw [if_pos hqa]
        simp only [List.map_cons, List.sum_cons]
        omega
      · rw [if_neg hqa]
        exact ih

theorem filter_sum_consume {v : α} {seen : List α} (hv : v ∉ seen) (f : α → Nat) :
    ∀ K : List α, v ∈ K →
      ((K.filter (fun k => decide (k ∉ v :: seen))).map f).sum + f v ≤
        ((K.filter (fun k => decide (k ∉ seen))).map f).sum := by
  intro K
  induction K with
  | nil => intro hvK; exact absurd hvK (List.not_mem_nil v)
  | cons a as ih =>
    intro hvK
    rw [List.filter_cons, List.filter_cons]
    by_cases hav : a = v
    · subst hav
      rw [if_neg (by simp), if_pos (by simpa using hv)]
      simp only [List.map_cons, List.sum_cons]
      have hmono := filter_map_sum_le_of_imp
        (fun k => decide (k ∉ a :: seen)) (fun k => decide (k ∉ seen))
        (by
          intro x hx
          simp only [decide_eq_true_eq] at hx ⊢
          exact fun hmem => hx (List.mem_cons_of_mem a hmem)) f as
      omega
    · have hvas : v ∈ as := by
        rcases List.mem_cons.mp hvK with h | h
        · exact absurd h.symm hav
        · exact h
      have heq : (decide (a ∉ v :: seen)) = (decide (a ∉ seen)) := by
        by_cases has : a ∈ seen
        · simp [has]
        · simp [has, hav]
      rw [heq]
      by_cases hqa : (decide (a ∉ seen)) = true
      · rw [if_pos hqa, if_pos hqa]
        simp only [List.map_cons, List.sum_cons]
        have := ih hvas
        omega
      · rw [if_neg hqa, if_neg hqa]
        exact ih hvas

theorem phi_sortStep_lt (deps : α → List α) (K : List α)
    {s : TState α} {v : α} {qt : List α}
    (hq : s.q = v :: qt) (hvK : v ∈ K) :
    phi deps K (sortStep deps s v qt) < phi deps K s := by
  by_cases hv : v ∈ s.seen
  · rw [sortStep, if_pos hv]
    simp only [phi, hq, List.length_cons]
    omega
  · rw [sortStep, if_neg hv]
    have hkey : ((K.filter (fun k => decide (k ∉ v :: s.seen))).map
        (fun k => (deps k).length)).sum + (deps v).length ≤
        ((K.filter (fun k => decide (k ∉ s.seen))).map
          (fun k => (deps k).length)).sum :=
      filter_sum_consume hv (fun k => (deps k).length) K hvK
    simp only [phi, hq, List.length_cons, List.length_append, List.length_reverse]
    omega

theorem sortLoop_succ (deps : α → List α) (fuel : Nat) (s : TState α) :
    sortLoop deps (fuel + 1) s =
      (match s.q with
       | [] => s
       | v :: qt => sortLoop deps fuel (sortStep deps s v qt)) := rfl

theorem sortLoop_spec {deps : α → List α} {K : List α} {rank : α → Nat} {start : α}
    (hclosed : ∀ k ∈ K, ∀ d ∈ deps k, d ∈ K)
    (hrank : AcyclicRank deps K rank) :
    ∀ (fuel : Nat) (s : TState α), SortInv deps K start s →
      SortInv deps K start (sortLoop deps fuel s) ∧
      (phi deps K s ≤ fuel → (sortLoop deps fuel s).q = []) := by
  intro fuel
  induction fuel with
  | zero =>
    intro s hinv
    refine ⟨hinv, fun hphi => ?_⟩
    have hlen : s.q.length = 0 := by
      simp only [phi] at hphi
      omega
    exact List.length_eq_zero.mp hlen
  | succ fuel ih =>
    intro s hinv
    cases hq : s.q with
    | nil =>
      rw [sortLoop_succ, hq]
      exact ⟨hinv, fun _ => hq⟩
    | cons v qt =>
      rw [sortLoop_succ, hq]
      have hinv' := sortStep_inv hclosed hrank hq hinv
      obtain ⟨ha, hb⟩ := ih (sortStep deps s v qt) hinv'
      refine ⟨ha, fun hphi => hb ?_⟩
      have hdec := phi_sortStep_lt deps K hq (hinv.qK v (hq ▸ List.mem_cons_self v qt))
      omega

theorem linearOk_mono {deps : α → List α} :
    ∀ (l d₁ d₂ : List α), (∀ x ∈ d₁, x ∈ d₂) →
      linearOk deps d₁ l → linearOk deps d₂ l := by
  intro l
  induction l with
  | nil => intro d₁ d₂ _ _; trivial
  | cons x rest ih =>
    intro d₁ d₂ hsub h
    refine ⟨fun d hd => hsub d (h.1 d hd), ?_⟩
    refine ih (x :: d₁) (x :: d₂) ?_ h.2
    intro y hy
    rcases List.mem_cons.mp hy with rfl | hy'
    · exact List.mem_cons_self y _
    · exact List.mem_cons_of_mem _ (hsub y hy')

theorem linearOk_append {deps : α → List α} :
    ∀ (xs ys done : List α), linearOk deps done xs →
      linearOk deps (xs.reverse ++ done) ys → linearOk deps done (xs ++ ys) := by
  intro xs
  induction xs with
  | nil => intro ys done _ h2; exact h2
  | cons x xs ih =>
    intro ys done h1 h2
    refine ⟨h1.1, ?_⟩
    refine ih ys (x :: done) h1.2 ?_
    have heq : (x :: xs).reverse ++ done = xs.reverse ++ (x :: done) := by
      rw [List.reverse_cons, List.append_assoc]
      rfl
    exact heq ▸ h2

theorem ordOk_linear {deps : α → List α} :
    ∀ (ord : List α), ordOk deps ord → ∀ done, linearOk deps done ord.reverse := by
  intro ord
  induction ord with
  | nil => intro _ done; trivial
  | cons x rest ih =>
    intro h done
    rw [List.reverse_cons]
    refine linearOk_append rest.reverse [x] done (ih h.2 done) ⟨?_, trivial⟩
    intro d hd
    have hdr : d ∈ rest := h.1 d hd
    simp only [List.reverse_reverse]
    exact List.mem_append_left _ hdr

theorem stack_linear {deps : α → List α} {K : List α} {rank : α → Nat}
    (hrank : AcyclicRank deps K rank) :
    ∀ (st done : List α),
      List.Chain' (fun a b => a ∈ deps b) st →
      (∀ x ∈ st, x ∈ K) →
      (∀ t ∈ st, ∀ d ∈ deps t, d ∈ done ∨ d ∈ st) →
      linearOk deps done st := by
  intro st
  induction st with
  | nil => intro done _ _ _; trivial
  | cons t rest ih =>
    intro done hchain hK hdep
    refine ⟨?_, ?_⟩
    · intro d hd
      rcases hdep t (List.mem_cons_self t rest) d hd with h' | h'
      · exact h'
      · exfalso
        have hdt : rank d < rank t := hrank t (hK t (List.mem_cons_self _ _)) d hd
        rcases List.mem_cons.mp h' with rfl | h''
        · exact lt_irrefl _ hdt
        · exact lt_irrefl _ (lt_trans hdt (chain_rank_lt hrank rest t hchain hK d h''))
    · refine ih (t :: done) (List.Chain'.tail hchain)
        (fun x hx => hK x (List.mem_cons_of_mem _ hx)) ?_
      intro u hu d hd
      rcases hdep u (List.mem_cons_of_mem _ hu) d hd with h' | h'
      · exact Or.inl (List.mem_cons_of_mem _ h')
      · rcases List.mem_cons.mp h' with rfl | h''
        · exact Or.inl (List.mem_cons_self d _)
        · exact Or.inr h''

theorem linearOk_get {deps : α → List α} :
    ∀ (l done : List α), linearOk deps done l →
      ∀ (i : Nat) (hi : i < l.length), ∀ d ∈ deps (l.get ⟨i, hi⟩),
        d ∈ done ∨ d ∈ l.take i := by
  intro l
  induction l with
  | nil => intro done _ i hi; exact absurd hi (by simp)
  | cons x rest ih =>
    intro done hlin i hi d hd
    cases i with
    | zero => exact Or.inl (hlin.1 d hd)
    | succ j =>
      have hj : j < rest.length := by simpa using hi
      rcases ih (x :: done) hlin.2 j hj d hd with h' | h'
      · rcases List.mem_cons.mp h' with rfl | h''
        · exact Or.inr (by rw [List.take_succ_cons]; exact List.mem_cons_self d _)
        · exact Or.inl h''
      · exact Or.inr (by rw [List.take_succ_cons]; exact List.mem_cons_of_mem _ h')

theorem indexOf_lt_of_mem_take :
    ∀ (l : List α) (i : Nat) (d : α), d ∈ l.take i → l.indexOf d < i := by
  intro l
  induction l with
  | nil => intro i d hd; simp at hd
  | cons x rest ih =>
    intro i d hd
    cases i with
    | zero => simp at hd
    | succ j =>
      rw [List.take_succ_cons] at hd
      rcases List.mem_cons.mp hd with rfl | hd'
      · simp [List.indexOf_cons_self]
      · by_cases hdx : d = x
        · subst hdx
          simp [List.indexOf_cons_self]
        · rw [List.indexOf_cons_ne rest (Ne.symm hdx)]
          have := ih j d hd'
          omega

theorem linearOk_indexOf {deps : α → List α} {E : List α}
    (hlin : linearOk deps [] E) :
    ∀ v ∈ E, ∀ d ∈ deps v, E.indexOf d < E.indexOf v := by
  intro v hv d hd
  have hiv : E.indexOf v < E.length := List.indexOf_lt_length.mpr hv
  have hget : E.get ⟨E.indexOf v, hiv⟩ = v := List.indexOf_get hiv
  have hd' : d ∈ deps (E.get ⟨E.indexOf v, hiv⟩) := by
    rw [hget]
    exact hd
  rcases linearOk_get E [] hlin (E.indexOf v) hiv d hd' with h' | h'
  · exact absurd h' (List.not_mem_nil d)
  · exact indexOf_lt_of_mem_take E (E.indexOf v) d h'

theorem reach_sub_seen {deps : α → List α} {start : α} {s : TState α}
    (hq : s.q = [])
    (hclosedSeen : ∀ x ∈ s.seen, ∀ d ∈ deps x, d ∈ s.seen ∨ d ∈ s.q)
    (hstart : start ∈ s.seen ∨ start ∈ s.q) :
    ∀ x, Reach deps start x → x ∈ s.seen := by
  intro x hx
  induction hx with
  | refl =>
    rcases hstart with h | h
    · exact h
    · rw [hq] at h
      exact absurd h (List.not_mem_nil start)
  | step hreach hdep ih =>
    rcases hclosedSeen _ ih _ hdep with h | h
    · exact h
    · rw [hq] at h
      exact absurd h (List.not_mem_nil _)

theorem exec_order_spec {g : List (α × List α)} {start : α} {rank : α → Nat}
    (hstart : start ∈ graphKeys g)
    (hclosed : ∀ k ∈ graphKeys g, ∀ d ∈ graphDeps g k, d ∈ graphKeys g)
    (hrank : AcyclicRank (graphDeps g) (graphKeys g) rank) :
    (executionOrder g start).Nodup ∧
    (∀ v, v ∈ executionOrder g start ↔ Reach (graphDeps g) start v) ∧
    linearOk (graphDeps g) [] (executionOrder g start) := by
  have hinit : SortInv (graphDeps g) (graphKeys g) start ⟨[], [], [], [start]⟩ := by
    refine ⟨?_, ?_, List.nodup_nil, List.Perm.refl _, List.chain'_nil, trivial,
      ?_, ?_, ?_, Or.inr (List.mem_singleton.mpr rfl), trivial⟩
    · intro x hx
      exact absurd hx (List.not_mem_nil x)
    · intro x hx
      exact List.mem_singleton.mp hx ▸ hstart
    · intro x hx
      exact absurd hx (List.not_mem_nil x)
    · intro x hx
      exact absurd hx (List.not_mem_nil x)
    · intro x hx
      rw [List.mem_singleton.mp hx]
      exact Reach.refl
  have hphi : phi (graphDeps g) (graphKeys g) ⟨[], [], [], [start]⟩ ≤ sortFuel g := by
    simp [phi, sortFuel]
  obtain ⟨hfinal, hqempty⟩ := sortLoop_spec hclosed hrank (sortFuel g)
    ⟨[], [], [], [start]⟩ hinit
  have hqe := hqempty hphi
  have hE : executionOrder g start =
      (sortLoop (graphDeps g) (sortFuel g) ⟨[], [], [], [start]⟩).order.reverse ++
        (sortLoop (graphDeps g) (sortFuel g) ⟨[], [], [], [start]⟩).stack := by
    rw [executionOrder, iterative_topological_sort]
    rw [List.reverse_append, List.reverse_reverse]
  have hpermE : (executionOrder g start).Perm
      (sortLoop (graphDeps g) (sortFuel g) ⟨[], [], [], [start]⟩).seen := by
    rw [hE]
    exact ((List.reverse_perm _).append_right _).trans
      (List.perm_append_comm.trans hfinal.perm)
  have hstackK : ∀ x ∈ (sortLoop (graphDeps g) (sortFuel g)
      ⟨[], [], [], [start]⟩).stack, x ∈ graphKeys g := fun x hx =>
    hfinal.seenK x (hfinal.perm.subset (List.mem_append_left _ hx))
  refine ⟨hpermE.nodup_iff.mpr hfinal.seenNodup, ?_, ?_⟩
  · intro v
    rw [hpermE.mem_iff]
    exact ⟨hfinal.reachSeen v,
      fun h => reach_sub_seen hqe hfinal.closedSeen hfinal.startIn v h⟩
  · rw [hE]
    refine linearOk_append _ _ []
      (ordOk_linear _ hfinal.ordok []) ?_
    refine linearOk_mono _ (sortLoop (graphDeps g) (sortFuel g)
      ⟨[], [], [], [start]⟩).order _ ?_ ?_
    · intro x hx
      simp only [List.reverse_reverse]
      exact List.mem_append_left _ hx
    · refine stack_linear hrank _ _ hfinal.chain hstackK ?_
      intro t ht d hd
      have htseen := hfinal.perm.subset (List.mem_append_left _ ht)
      rcases hfinal.closedSeen t htseen d hd with h' | h'
      · rcases List.mem_append.mp (hfinal.perm.symm.subset h') with h'' | h''
        · exact Or.inr h''
        · exact Or.inl h''
      · rw [hqe] at h'
        exact absurd h' (List.not_mem_nil d)

/-- C1: for every dependency-closed graph that is acyclic (witnessed by a
rank function) and every target node, the execution order consumed by the
engine (the reversed result of iterative_topological_sort) contains exactly
the target's transitive closure, each node exactly once, and places every
node strictly after every node it transitively depends on. -/
theorem topo_resolution_correct (g : List (α × List α)) (start : α) (rank : α → Nat)
    (hstart : start ∈ graphKeys g)
    (hclosed : ∀ k ∈ graphKeys g, ∀ d ∈ graphDeps g k, d ∈ graphKeys g)
    (hrank : AcyclicRank (graphDeps g) (graphKeys g) rank) :
    (executionOrder g start).Nodup ∧
    (∀ v, v ∈ executionOrder g start ↔ Reach (graphDeps g) start v) ∧
    (∀ v d, v ∈ executionOrder g start →
      Relation.TransGen (fun a b => b ∈ graphDeps g a) v d →
      (executionOrder g start).indexOf d < (executionOrder g start).indexOf v) := by
  obtain ⟨hnd, hmem, hlin⟩ := exec_order_spec hstart hclosed hrank
  refine ⟨hnd, hmem, ?_⟩
  intro v d hv htg
  have key : ∀ c, Relation.TransGen (fun a b => b ∈ graphDeps g a) v c →
      c ∈ executionOrder g start ∧
      (executionOrder g start).indexOf c < (executionOrder g start).indexOf v := by
    intro c htc
    induction htc with
    | single h =>
      exact ⟨(hmem _).mpr (Reach.step ((hmem v).mp hv) h),
        linearOk_indexOf hlin v hv _ h⟩
    | tail h1 h2 ih =>
      obtain ⟨hbE, hbi⟩ := ih
      exact ⟨(hmem _).mpr (Reach.step ((hmem _).mp hbE) h2),
        lt_trans (linearOk_indexOf hlin _ hbE _ h2) hbi⟩
  exact (key d htg).2

/-- C1 witness: a two-node graph where node 0 depends on node 1, resolved
from target 0: node 1 executes strictly before node 0. -/
theorem topo_resolution_correct_witness :
    (executionOrder [(0, [1]), (1, ([] : List Nat))] 0).Nodup ∧
    (executionOrder [(0, [1]), (1, ([] : List Nat))] 0).indexOf 1 <
      (executionOrder [(0, [1]), (1, ([] : List Nat))] 0).indexOf 0 := by
  have h := topo_resolution_correct [(0, [1]), (1, ([] : List Nat))] 0
    (fun v => if v = 0 then 1 else 0) (by decide) (by decide) (by decide)
  exact ⟨h.1, h.2.2 0 1 (by decide) (Relation.TransGen.single (by decide))⟩

end BGS
